import Mathlib

/-!
# Verification of `functions.py` (color_vision repository)

Shallow embedding of the stimulus-timing pipelines (`get_stim_samples_fh`,
`get_stim_samples_pg`), the timestamp cross-correlator (`xcorr`) and the
binned cross-correlator with shuffled null (`xcorr_sp`), together with
theorems settling the specification claims.

Conventions:
* sample offsets and bin indices are `ℕ`, photodiode amplitudes are `ℤ`
  (the recording is int16), spike timestamps are `ℚ`;
* `np.sort` is modelled by `List.insertionSort (· ≤ ·)` (a `≤`-sorted
  permutation, which is `np.sort`'s contract);
* a write into a NumPy array at an out-of-range position raises
  `IndexError`; such writes are modelled with `Option`.
-/

namespace ColorVision

/-- `np.sort` on natural numbers: a sorted permutation of the input. -/
def npSort (l : List ℕ) : List ℕ := List.insertionSort (· ≤ ·) l

/-- `np.sort` on rationals (used for the histogram bin edges in `xcorr`). -/
def npSortQ (l : List ℚ) : List ℚ := List.insertionSort (· ≤ ·) l

/-- `np.arange(lo, hi)` for integer bounds with step 1. -/
def npArange (lo hi : ℤ) : List ℤ :=
  (List.range (hi - lo).toNat).map (fun n : ℕ => lo + (n : ℤ))

/-- `np.arange(0, stop, step)` for natural bounds: multiples of `step`
strictly below `stop`. -/
def npArangeStep (stop step : ℕ) : List ℕ :=
  (List.range ((stop + step - 1) / step)).map (· * step)

/-- `np.histogram(data, bins)[0]`: occupancy counts of half-open bins
`[e_i, e_{i+1})`, the final bin closed on the right (NumPy's convention).
Fewer than two edges give no bins. -/
def histogram (data : List ℚ) : List ℚ → List ℕ
  | [] => []
  | [_] => []
  | [e, f] => [data.countP (fun x => decide (e ≤ x) && decide (x ≤ f))]
  | e :: f :: g :: rest =>
    data.countP (fun x => decide (e ≤ x) && decide (x < f))
      :: histogram data (f :: g :: rest)

/-! ## `get_stim_samples_fh` (functions.py lines 124–180)

The photodiode channel of the recording is `data[128, start_time*25000 :]`
(slice-local sample `i` is absolute sample `start_time*25000 + i`).  The
pipeline is modelled as a function of the slice-local amplitude `amp` and
of the strictly increasing peak list returned by `detect_peaks`. -/

/-- Line 136: high-amplitude threshold. -/
def hi_cut : ℤ := 1500

/-- Line 137: low-amplitude threshold. -/
def lo_cut : ℤ := 600

/-- Line 132/134: absolute sample index of slice-local sample `i` of the
fh variant's photodiode slice (`data[128, start_time * 25000 : ...]`). -/
def fhSliceIndex (start_time i : ℕ) : ℕ := start_time * 25000 + i

/-- Line 187: absolute sample index of slice-local sample `i` of the pg
variant's photodiode slice (`data[128, start_time * 60 * 25000 : ...]`). -/
def pgSliceIndex (start_time i : ℕ) : ℕ := start_time * 60 * 25000 + i

/-- Line 176: the offset added to the fh onset samples. -/
def fhOffset (start_time : ℕ) : ℕ := start_time * 60 * 25000

/-- Line 196: the offset added to the pg onset samples. -/
def pgOffset (start_time : ℕ) : ℕ := start_time * 60 * 25000

/-- Line 145: `peaks_high = peaks[data.photodiode[peaks] > hi_cut]`. -/
def peaks_high (amp : ℕ → ℤ) (peaks : List ℕ) : List ℕ :=
  peaks.filter (fun p => decide (hi_cut < amp p))

/-- Line 146: `peaks_low` keeps peaks with `lo_cut < amplitude < hi_cut`. -/
def peaks_low (amp : ℕ → ℤ) (peaks : List ℕ) : List ℕ :=
  peaks.filter (fun p => decide (lo_cut < amp p) && decide (amp p < hi_cut))

/-- Line 150: `np.where(np.diff(peaks_high) > 5000)[0]` — positions `i`
with `H[i+1] - H[i] > 5000` (candidate trial boundaries). -/
def trial_break_idx (H : List ℕ) : List ℕ :=
  (List.range (H.length - 1)).filter
    (fun i => decide ((5000 : ℤ) < (H.getD (i + 1) 0 : ℤ) - (H.getD i 0 : ℤ)))

/-- Python list/array indexing: a negative index `i` addresses position
`len + i`. -/
def pyGet (l : List ℕ) (i : ℤ) : ℕ :=
  if i < 0 then l.getD (l.length - (-i).toNat) 0 else l.getD i.toNat 0

/-- Lines 151–158: the boundary-confirmation loop.  For each candidate
`idx` (in order): if `peaks_high[idx] - peaks_high[idx-1] < 500` the
candidate is discarded, otherwise it is kept and every low peak strictly
between `peaks_high[idx]` and `peaks_high[idx+1]` is deleted.  Returns
the kept candidates and the surviving low peaks. -/
def breakLoop (H : List ℕ) : List ℕ → List ℕ → List ℕ × List ℕ
  | [], lows => ([], lows)
  | idx :: rest, lows =>
    if (pyGet H idx : ℤ) - (pyGet H ((idx : ℤ) - 1) : ℤ) < 500 then
      breakLoop H rest lows
    else
      let lows' := lows.filter
        (fun p => !(decide (pyGet H idx < p) && decide (p < pyGet H ((idx : ℤ) + 1))))
      let r := breakLoop H rest lows'
      (idx :: r.1, r.2)

/-- `np.delete(l, idxs)`: remove the elements at the listed positions. -/
def npDelete (l : List ℕ) (idxs : List ℕ) : List ℕ :=
  (l.enum.filter (fun q => decide (q.1 ∉ idxs))).map Prod.snd

/-- Lines 167–174 restricted to one amplitude class: the first peak of
every maximal run of consecutive peaks satisfying `f` (the rising edges
produced by `cls & ~cls.shift(1).fillna(False)`). -/
def risingAux (f : ℕ → Bool) (prev : ℕ) : List ℕ → List ℕ
  | [] => []
  | p :: rest => (if f p && !f prev then [p] else []) ++ risingAux f p rest

/-- Rising edges of the predicate `f` along the ordered peak list. -/
def rising (f : ℕ → Bool) : List ℕ → List ℕ
  | [] => []
  | p :: rest => (if f p then [p] else []) ++ risingAux f p rest

/-- Lines 150–164: the filtered, merged peak list of the fh pipeline. -/
def fhPeaksFinal (amp : ℕ → ℤ) (peaks : List ℕ) : List ℕ :=
  let H := peaks_high amp peaks
  let r := breakLoop H (trial_break_idx H) (peaks_low amp peaks)
  let tbi2 := npSort (r.1 ++ r.1.map (· + 1))
  let H2 := ((npDelete H tbi2).drop 1).dropLast
  npSort (H2 ++ r.2)

/-- Lines 167–176 before the offset: rising edges into the high class
(`photodiode > 1500`) and into the low class (`photodiode < 1500`),
merged and sorted. -/
def fhOnsetsLocal (amp : ℕ → ℤ) (peaks : List ℕ) : List ℕ :=
  let ps := fhPeaksFinal amp peaks
  npSort (rising (fun p => decide ((1500 : ℤ) < amp p)) ps ++
          rising (fun p => decide (amp p < (1500 : ℤ))) ps)

/-- Line 176: `stim_times = np.sort(np.concatenate([high, low])) +
(start_time * 60 * 25000)` — the value `get_stim_samples_fh` returns. -/
def fhStimTimes (amp : ℕ → ℤ) (peaks : List ℕ) (start_time : ℕ) : List ℕ :=
  (fhOnsetsLocal amp peaks).map (· + fhOffset start_time)

/-! ## `get_stim_samples_pg` (functions.py lines 183–203) -/

/-- Lines 193–195: the first detected peak, then every peak whose gap to
its predecessor exceeds 10000 samples. -/
def pgOnsets (peaks : List ℕ) : List ℕ :=
  peaks.take 1 ++
    (((List.range (peaks.length - 1)).filter
        (fun i => decide ((10000 : ℤ) < (peaks.getD (i + 1) 0 : ℤ) - (peaks.getD i 0 : ℤ)))).map
      (fun i => peaks.getD (i + 1) 0))

/-- Line 196: the value `get_stim_samples_pg` returns. -/
def pgStimTimes (peaks : List ℕ) (start_time : ℕ) : List ℕ :=
  (pgOnsets peaks).map (· + pgOffset start_time)

/-! ## Persisted artifacts (lines 178–179 and 201)

`np.save` writes one Python value to a `.npy` file; the value written is
either an integer array or (erroneously) a string. -/

/-- A value stored in a `.npy` file by this code: an integer array or a
string. -/
inductive NpyValue
  | intArr (xs : List ℕ)
  | str (s : String)
deriving DecidableEq

/-- Lines 178–179: `np.save(data_folder + '/stim_samples.npy', data_folder)`
— the fh pipeline saves the *folder path string*, not the onset array.
Returns the file path and the stored value. -/
def fhSaveArtifact (data_folder : String) (_stim_times : List ℕ) : String × NpyValue :=
  (data_folder ++ "/stim_samples.npy", NpyValue.str data_folder)

/-- Line 201: `np.save(dirname(data_path) + '/stim_samples.npy', stim_times)`
— the pg pipeline saves the onset array. -/
def pgSaveArtifact (data_folder : String) (stim_times : List ℕ) : String × NpyValue :=
  (data_folder ++ "/stim_samples.npy", NpyValue.intArr stim_times)

/-! ## `xcorr` (functions.py lines 355–382)

Timestamps are rationals (the float literal `0.0001` is the exact value
`1/10000` here).  A NumPy array write at an out-of-range position raises
`IndexError`, modelled by `Option`. -/

/-- `np.intersect1d(a, b).size`: the number of distinct values present in
both sequences. -/
def intersect1dSize (a b : List ℚ) : ℕ :=
  ((a.filter (fun x => decide (x ∈ b))).dedup).length

/-- Bounds-checked array write: `arr[i] = v`, failing out of range. -/
def setAt (arr : List ℕ) (i : ℕ) (v : ℕ) : Option (List ℕ) :=
  if i < arr.length then some (arr.set i v) else none

/-- `l[0::2]`: every other element, starting with the first. -/
def everyOther : List ℕ → List ℕ
  | [] => []
  | [x] => [x]
  | x :: _ :: rest => x :: everyOther rest

/-- Lines 366–380: the lag loop of `xcorr`.  For `i = 0` the exact
intersection count is written at position `maxlag`; for `i > 0` the two
alternating-bin histogram counts are written at positions
`|i - maxlag|` and `i + maxlag`. -/
def xcorrLoop (a b : List ℚ) (maxlag : ℕ) (spacing : ℕ) :
    List ℕ → List ℕ → Option (List ℕ)
  | arr, [] => some arr
  | arr, i :: rest =>
    if i = 0 then
      (setAt arr maxlag (intersect1dSize a b)).bind
        (fun arr' => xcorrLoop a b maxlag spacing arr' rest)
    else
      let bins_sub := npSortQ ((a.map (fun x => x - ((i : ℚ) - (spacing : ℚ)))) ++
                               (a.map (fun x => x - (i : ℚ))))
      let bins_add := npSortQ ((a.map (fun x => x + ((i : ℚ) - (spacing : ℚ)))) ++
                               (a.map (fun x => x + (i : ℚ) + (1 / 10000 : ℚ))))
      let hist_sub := (everyOther (histogram b bins_sub)).sum
      let hist_add := (everyOther (histogram b bins_add)).sum
      (setAt arr (((i : ℤ) - (maxlag : ℤ)).natAbs) hist_sub).bind
        (fun arr' => (setAt arr' (i + maxlag) hist_add).bind
          (fun arr'' => xcorrLoop a b maxlag spacing arr'' rest))

/-- Lines 355–382: `xcorr(a, b, maxlag, spacing)`.  The count array is
`np.zeros(maxlag/spacing * 2 + 1)` (Python 2 integer division) and the
lag index is `np.arange(-maxlag, maxlag + 1)`; `spacing = 0` makes
`np.arange(0, maxlag+1, 0)` fail. -/
def xcorr (a b : List ℚ) (maxlag : ℕ) (spacing : ℕ) :
    Option (List ℕ × List ℤ) :=
  if spacing = 0 then none
  else
    let arr0 := List.replicate (maxlag / spacing * 2 + 1) 0
    let index := npArange (-(maxlag : ℤ)) ((maxlag : ℤ) + 1)
    (xcorrLoop a b maxlag spacing arr0 (npArangeStep (maxlag + 1) spacing)).map
      (fun arr => (arr, index))

/-! ## `xcorr_sp` (functions.py lines 411–476) -/

/-- Line 420: seconds → milliseconds. -/
def toMs (times : List ℚ) : List ℚ := times.map (· * 1000)

/-- `pandas.Series.max()` of a list of nonnegative times (0 on the empty
list). -/
def listMax (l : List ℚ) : ℚ := l.foldr max 0

/-- Line 422: the number of bin edges of
`np.arange(0, int(np.ceil(sp.time_ms.max())), shift)`. -/
def numEdges (allTimesMs : List ℚ) (shift : ℕ) : ℕ :=
  ((Int.ceil (listMax allTimesMs)).toNat + shift - 1) / shift

/-- Line 422: `bins = np.arange(0, int(np.ceil(sp.time_ms.max())), shift)`
as rational histogram edges. -/
def binEdges (allTimesMs : List ℚ) (shift : ℕ) : List ℚ :=
  (npArangeStep (Int.ceil (listMax allTimesMs)).toNat shift).map (fun n : ℕ => (n : ℚ))

/-- The last bin edge, `(numEdges - 1) * shift`. -/
def lastEdge (allTimesMs : List ℚ) (shift : ℕ) : ℚ :=
  (((numEdges allTimesMs shift - 1) * shift : ℕ) : ℚ)

/-- Line 424: one cluster's binned series
`np.histogram(cluster_times_ms, bins)[0]`; the edges come from the whole
session's maximum spike time. -/
def binnedSeries (allTimesMs clusterTimesMs : List ℚ) (shift : ℕ) : List ℕ :=
  histogram clusterTimesMs (binEdges allTimesMs shift)

/-- Lines 426–428: the shuffled table.
`binned.reindex(np.random.permutation(binned.index))` reorders the rows
of the whole table by the single drawn permutation `perm` (row `t` of the
result is row `perm[t]` of the original, for every column), and
`binned_shuff.index = binned.index` restores the original labels. -/
def shuffleTable (perm : List ℕ) (cols : List (List ℕ)) : List (List ℕ) :=
  cols.map (fun c => perm.map (fun t => c.getD t 0))

/-- Row `t` of a column-major cluster×bin table. -/
def tableRow (cols : List (List ℕ)) (t : ℕ) : List ℕ :=
  cols.map (fun c => c.getD t 0)

/-- Column access at a (possibly out-of-range) signed row label, as
`binned_shuff.loc[...]` behaves on missing labels: 0 contribution. -/
def colAt (c : List ℕ) (z : ℤ) : ℕ :=
  if z < 0 then 0 else c.getD z.toNat 0

/-- Lines 437–443: the correlogram entry at bin offset `k` for reference
column `ref` and paired column `paired` — the sum of `paired` at
`t + k` over the bins `t` where `ref` is nonzero
(`binned.loc[nonzero_bins + j/shift].sum()`). -/
def corrEntry (ref paired : List ℕ) (k : ℤ) : ℕ :=
  ∑ t ∈ Finset.range ref.length,
    if ref.getD t 0 ≠ 0 then colAt paired ((t : ℤ) + k) else 0

/-- Line 453 denominator: `xcorr.sum()` — the observed correlogram of the
pair summed over the lag index `-L, …, L` (in bin-offset units). -/
def corrTotal (ref paired : List ℕ) (L : ℕ) : ℕ :=
  ∑ k ∈ Finset.Icc (-(L : ℤ)) (L : ℤ), corrEntry ref paired k

/-- Line 453: `corr_prob = (xcorr.loc[0] - xcorr_shuff.loc[0]) / xcorr.sum()`
for one pair; `shufPaired` is the paired cluster's shuffled column (the
shuffled correlogram uses the observed reference's nonzero bins). -/
def corrProb (ref paired shufPaired : List ℕ) (L : ℕ) : ℚ :=
  (((corrEntry ref paired 0 : ℤ) - (corrEntry ref shufPaired 0 : ℤ) : ℤ) : ℚ) /
    ((corrTotal ref paired L : ℕ) : ℚ)

/-- Line 458: a pair is plotted as significant exactly when
`corr_prob > cp_sig` (strict). -/
def significantPair (ref paired shufPaired : List ℕ) (L : ℕ) (cp_sig : ℚ) : Prop :=
  cp_sig < corrProb ref paired shufPaired L

instance (ref paired shufPaired : List ℕ) (L : ℕ) (cp_sig : ℚ) :
    Decidable (significantPair ref paired shufPaired L cp_sig) := by
  unfold significantPair; infer_instance

/-! ## Basic helper lemmas -/

/-- `getD` through a `map`, inside bounds. -/
theorem getD_map_of_lt (l : List ℕ) (f : ℕ → ℕ) (t : ℕ) (h : t < l.length) :
    (l.map f).getD t 0 = f (l.getD t 0) := by
  rw [List.getD_eq_getElem _ _ (by simpa using h), List.getElem_map,
    List.getD_eq_getElem _ _ h]

/-! ## Claim C2: the persisted `stim_samples` artifact -/

/-- C2: the stimulus-timing pipeline is claimed to persist the returned
onset sequence for both variants.  The pg variant does store the onset
array, but the fh variant (line 179) stores the *folder path string*
`data_folder` in `stim_samples.npy`, never the onset array — the code
contradicts its evident intent. -/
theorem C2_fh_saves_folder_string_not_onsets (data_folder : String)
    (stim_times : List ℕ) :
    (fhSaveArtifact data_folder stim_times).2 = NpyValue.str data_folder ∧
    (∀ xs : List ℕ, (fhSaveArtifact data_folder stim_times).2 ≠ NpyValue.intArr xs) ∧
    (pgSaveArtifact data_folder stim_times).2 = NpyValue.intArr stim_times := by
  refine ⟨rfl, fun xs h => ?_, rfl⟩
  exact NpyValue.noConfusion h

/-! ## Claim C10: inconsistent units of `start_time` in the fh variant -/

/-- C10: `get_stim_samples_fh` slices the photodiode channel starting at
sample `start_time * 25000` but adds `start_time * 60 * 25000` to the
slice-local peak offsets, so every emitted onset is the slice-local
offset plus `start_time * 60 * 25000`, and exceeds the peak's absolute
session sample index by `start_time * 59 * 25000`; `get_stim_samples_pg`
uses `start_time * 60 * 25000` for both the slice origin and the added
offset. -/
theorem C10_fh_slice_offset_unit_mismatch (amp : ℕ → ℤ) (peaks : List ℕ)
    (start_time p : ℕ) (h : 0 < start_time) :
    fhStimTimes amp peaks start_time
      = (fhOnsetsLocal amp peaks).map (fun q => q + start_time * 60 * 25000) ∧
    fhSliceIndex start_time p = p + start_time * 25000 ∧
    (p + fhOffset start_time) - fhSliceIndex start_time p = start_time * 59 * 25000 ∧
    fhOffset start_time ≠ start_time * 25000 ∧
    pgSliceIndex start_time p = p + pgOffset start_time := by
  refine ⟨rfl, ?_, ?_, ?_, ?_⟩
  · simp [fhSliceIndex, Nat.add_comm]
  · simp only [fhOffset, fhSliceIndex]
    omega
  · simp only [fhOffset]
    omega
  · simp [pgSliceIndex, pgOffset, Nat.add_comm]

/-- Witness for C10 at `start_time = 1`, `p = 0`. -/
theorem C10_fh_slice_offset_unit_mismatch_witness :
    0 < 1 ∧
    (fhStimTimes (fun _ => (0 : ℤ)) [] 1
        = (fhOnsetsLocal (fun _ => (0 : ℤ)) []).map (fun q => q + 1 * 60 * 25000) ∧
      fhSliceIndex 1 0 = 0 + 1 * 25000 ∧
      (0 + fhOffset 1) - fhSliceIndex 1 0 = 1 * 59 * 25000 ∧
      fhOffset 1 ≠ 1 * 25000 ∧
      pgSliceIndex 1 0 = 0 + pgOffset 1) :=
  ⟨by decide, C10_fh_slice_offset_unit_mismatch (fun _ => 0) [] 1 0 (by decide)⟩

/-! ## Claim C1: the null shuffler applies one joint row permutation -/

/-- C1 counterexample: the claim says each cluster's column is permuted
by its own independently drawn permutation.  For the table with columns
`[1,2]` and `[10,20]`, independent permutations can reverse the first
column while fixing the second, but no permutation input to the code's
shuffler produces that table: the single drawn permutation acts on every
column at once. -/
theorem C1_counterexample :
    shuffleTable [1, 0] [[1, 2], [10, 20]] = [[2, 1], [20, 10]] ∧
    ∀ perm : List ℕ, shuffleTable perm [[1, 2], [10, 20]] ≠ [[2, 1], [10, 20]] := by
  refine ⟨by decide, fun perm h => ?_⟩
  simp only [shuffleTable, List.map_cons, List.map_nil, List.cons.injEq, and_true] at h
  obtain ⟨h1, h2⟩ := h
  rcases perm with _ | ⟨a, _ | ⟨b, _ | ⟨c, rest⟩⟩⟩
  · simp at h1
  · simp at h1
  · simp only [List.map_cons, List.map_nil, List.cons.injEq, and_true] at h1 h2
    obtain ⟨ha1, hb1⟩ := h1
    obtain ⟨ha2, hb2⟩ := h2
    rcases a with _ | _ | n
    · exact absurd ha1 (by decide)
    · exact absurd ha2 (by decide)
    · simp [List.getD_eq_getElem?_getD] at ha1
  · simp at h1

/-- C1 amended: the shuffled table is produced by drawing a single
permutation of the bin indices and applying it jointly to every
cluster's column — row `t` of the shuffled table is row `perm[t]` of the
observed table, for all clusters simultaneously, with the original index
labels preserved. -/
theorem C1_shuffle_is_joint_row_permutation (perm : List ℕ)
    (cols : List (List ℕ)) (t : ℕ) (ht : t < perm.length) :
    tableRow (shuffleTable perm cols) t = tableRow cols (perm.getD t 0) := by
  simp only [tableRow, shuffleTable, List.map_map]
  refine List.map_congr_left (fun c _ => ?_)
  exact getD_map_of_lt perm (fun s => c.getD s 0) t ht

/-- Witness for C1's amended theorem on a concrete table. -/
theorem C1_shuffle_is_joint_row_permutation_witness :
    0 < [1, 0].length ∧
    tableRow (shuffleTable [1, 0] [[1, 2], [10, 20]]) 0
      = tableRow [[1, 2], [10, 20]] ([1, 0].getD 0 0) :=
  ⟨by decide, C1_shuffle_is_joint_row_permutation [1, 0] [[1, 2], [10, 20]] 0 (by decide)⟩

/-! ## Claim C8: the correlation probability and its significance test -/

/-- C8: for every pair, `corr_prob` is the observed zero-lag count minus
the shuffled zero-lag count, divided by the observed correlogram's total
over all lags; a pair is treated as significant exactly when this
probability strictly exceeds `cp_sig`; with observed zero-lag 50,
shuffled zero-lag 10 and total 400 the probability is `1/10` (and sits
exactly at the default threshold, hence not significant under the strict
comparison). -/
theorem C8_corr_prob_formula (ref paired shufPaired : List ℕ) (L : ℕ)
    (h1 : corrEntry ref paired 0 = 50)
    (h2 : corrEntry ref shufPaired 0 = 10)
    (h3 : corrTotal ref paired L = 400) :
    corrProb ref paired shufPaired L = 1 / 10 ∧
    ¬ significantPair ref paired shufPaired L (1 / 10) ∧
    (∀ cp_sig : ℚ, significantPair ref paired shufPaired L cp_sig ↔
      cp_sig < corrProb ref paired shufPaired L) := by
  have hp : corrProb ref paired shufPaired L = 1 / 10 := by
    unfold corrProb
    rw [h1, h2, h3]
    norm_num
  refine ⟨hp, ?_, fun cp_sig => Iff.rfl⟩
  unfold significantPair
  rw [hp]
  exact lt_irrefl _

/-- Witness for C8: reference column `[1]`, paired column `[50, 350]`,
shuffled paired column `[10]`, lag radius 1. -/
theorem C8_corr_prob_formula_witness :
    (corrEntry [1] [50, 350] 0 = 50 ∧ corrEntry [1] [10] 0 = 10 ∧
      corrTotal [1] [50, 350] 1 = 400) ∧
    (corrProb [1] [50, 350] [10] 1 = 1 / 10 ∧
      ¬ significantPair [1] [50, 350] [10] 1 (1 / 10) ∧
      (∀ cp_sig : ℚ, significantPair [1] [50, 350] [10] 1 cp_sig ↔
        cp_sig < corrProb [1] [50, 350] [10] 1)) :=
  ⟨⟨by decide, by decide, by decide⟩,
    C8_corr_prob_formula [1] [50, 350] [10] 1 (by decide) (by decide) (by decide)⟩

/-! ## Helper lemmas for `xcorr` -/

/-- A successful bounds-checked write means the index was in range. -/
theorem setAt_some {arr : List ℕ} {i v : ℕ} {arr' : List ℕ}
    (h : setAt arr i v = some arr') : i < arr.length ∧ arr' = arr.set i v := by
  unfold setAt at h
  split at h
  · exact ⟨by assumption, by injection h with h; exact h.symm⟩
  · exact absurd h (by simp)

/-- An in-range bounds-checked write succeeds. -/
theorem setAt_lt {arr : List ℕ} {i v : ℕ} (h : i < arr.length) :
    setAt arr i v = some (arr.set i v) := by
  unfold setAt
  rw [if_pos h]

/-- `getD` after a `set` at a different position. -/
theorem getD_set_ne (l : List ℕ) {i j : ℕ} (v : ℕ) (h : i ≠ j) :
    (l.set i v).getD j 0 = l.getD j 0 := by
  simp [List.getD_eq_getElem?_getD, List.getElem?_set_ne h]

/-- `getD` after a `set` at the same (in-range) position. -/
theorem getD_set_self (l : List ℕ) {i : ℕ} (v : ℕ) (h : i < l.length) :
    (l.set i v).getD i 0 = v := by
  rw [List.getD_eq_getElem _ _ (by simpa using h)]
  exact List.getElem_set_self _

theorem npArange_length (lo hi : ℤ) : (npArange lo hi).length = (hi - lo).toNat := by
  unfold npArange
  rw [List.length_map, List.length_range]

theorem mem_npArange {lo hi z : ℤ} : z ∈ npArange lo hi ↔ lo ≤ z ∧ z < hi := by
  simp only [npArange, List.mem_map, List.mem_range]
  constructor
  · rintro ⟨n, hn, rfl⟩
    constructor <;> omega
  · rintro ⟨h1, h2⟩
    exact ⟨(z - lo).toNat, by omega, by omega⟩

/-- Every element of `np.arange(0, stop, step)` is below `stop`. -/
theorem mem_npArangeStep_lt {stop step i : ℕ} (hs : 0 < step)
    (h : i ∈ npArangeStep stop step) : i < stop := by
  simp only [npArangeStep, List.mem_map, List.mem_range] at h
  obtain ⟨k, hk, rfl⟩ := h
  have h2 : (k + 1) * step ≤ stop + step - 1 :=
    (Nat.le_div_iff_mul_le hs).mp (by omega)
  rw [Nat.add_mul, Nat.one_mul] at h2
  omega

/-- `np.arange(0, stop, step)` starts with 0 when it is nonempty. -/
theorem npArangeStep_cons {stop step : ℕ} (h1 : 0 < (stop + step - 1) / step) :
    npArangeStep stop step
      = 0 :: (List.range ((stop + step - 1) / step - 1)).map (fun k => (k + 1) * step) := by
  unfold npArangeStep
  obtain ⟨m, hm⟩ : ∃ m, (stop + step - 1) / step = m + 1 :=
    ⟨(stop + step - 1) / step - 1, by omega⟩
  rw [hm, List.range_succ_eq_map]
  simp [List.map_map, Function.comp, Nat.succ_eq_add_one, hm]

/-- For unit spacing every write of the `xcorr` lag loop is in range, so
the loop completes and preserves the array length. -/
theorem xcorrLoop_total_one (a b : List ℚ) (maxlag : ℕ) :
    ∀ (is : List ℕ) (arr : List ℕ), arr.length = 2 * maxlag + 1 →
      (∀ i ∈ is, i ≤ maxlag) →
      ∃ arr', xcorrLoop a b maxlag 1 arr is = some arr' ∧
        arr'.length = 2 * maxlag + 1 := by
  intro is
  induction is with
  | nil => exact fun arr hlen _ => ⟨arr, rfl, hlen⟩
  | cons i rest ih =>
    intro arr hlen hmem
    have hi : i ≤ maxlag := hmem i (by simp)
    have hrest : ∀ j ∈ rest, j ≤ maxlag := fun j hj => hmem j (by simp [hj])
    by_cases h0 : i = 0
    · subst h0
      simp only [xcorrLoop, if_pos rfl, setAt_lt (show maxlag < arr.length by omega),
        Option.some_bind]
      exact ih _ (by simp [hlen]) hrest
    · have hp1 : (((i : ℤ) - (maxlag : ℤ)).natAbs) < arr.length := by
        rw [hlen]; omega
      simp only [xcorrLoop, if_neg h0, setAt_lt hp1, Option.some_bind]
      rw [setAt_lt (show i + maxlag < _ by rw [List.length_set, hlen]; omega),
        Option.some_bind]
      exact ih _ (by simp [hlen]) hrest

/-- After the zero-lag write, no later write of the lag loop touches the
centre position `maxlag`. -/
theorem xcorrLoop_center (a b : List ℚ) (maxlag spacing : ℕ) :
    ∀ (is : List ℕ) (arr arr' : List ℕ), (∀ i ∈ is, 1 ≤ i ∧ i ≤ maxlag) →
      xcorrLoop a b maxlag spacing arr is = some arr' →
      arr'.getD maxlag 0 = arr.getD maxlag 0 := by
  intro is
  induction is with
  | nil => intro arr arr' _ h; injection h with h; rw [h]
  | cons i rest ih =>
    intro arr arr' hmem h
    obtain ⟨hi1, hi2⟩ := hmem i (by simp)
    have hrest : ∀ j ∈ rest, 1 ≤ j ∧ j ≤ maxlag := fun j hj => hmem j (by simp [hj])
    have h0 : ¬ (i = 0) := by omega
    simp only [xcorrLoop, if_neg h0] at h
    rcases hs1 : setAt arr (((i : ℤ) - (maxlag : ℤ)).natAbs) _ with _ | arr1 <;>
      rw [hs1] at h
    · exact absurd h (by simp)
    rw [Option.some_bind] at h
    rcases hs2 : setAt arr1 (i + maxlag) _ with _ | arr2 <;> rw [hs2] at h
    · exact absurd h (by simp)
    rw [Option.some_bind] at h
    obtain ⟨-, e1⟩ := setAt_some hs1
    obtain ⟨-, e2⟩ := setAt_some hs2
    rw [ih arr2 arr' hrest h, e2, getD_set_ne _ _ (by omega), e1,
      getD_set_ne _ _ (by omega)]

/-! ## Claim C6: the shape of `xcorr`'s outputs -/

/-- C6 counterexample: with `maxlag = 4` and `spacing = 2` (positive,
dividing `maxlag`) the count array has `2·maxlag/spacing + 1 = 5` cells
but the loop writes at position `i + maxlag = 6`, so the call fails with
an index error instead of returning the claimed pair of arrays. -/
theorem C6_counterexample : xcorr [0, 5] [0, 5] 4 2 = none := by
  norm_num [xcorr, xcorrLoop, npArangeStep, npSortQ, List.insertionSort,
    List.orderedInsert, histogram, intersect1dSize, everyOther, setAt, npArange,
    List.range_succ]

/-- C6 amended: `xcorr` returns a count array of length
`2·maxlag/spacing + 1` together with the lag index
`np.arange(-maxlag, maxlag+1)` only for `spacing = 1`, where that length
is `2·maxlag + 1`; the index always has `2·maxlag + 1` entries covering
`[-maxlag, maxlag]` in steps of 1 (so its entry count matches
`2·maxlag/spacing + 1` only when `spacing = 1`), and for
`1 < spacing ≤ maxlag` the lag loop writes out of the array's bounds and
the call fails instead of returning. -/
theorem C6_unit_spacing_lengths (a b : List ℚ) (maxlag : ℕ) :
    ∃ arr : List ℕ,
      xcorr a b maxlag 1 = some (arr, npArange (-(maxlag : ℤ)) ((maxlag : ℤ) + 1)) ∧
      arr.length = 2 * (maxlag / 1) + 1 ∧
      (npArange (-(maxlag : ℤ)) ((maxlag : ℤ) + 1)).length = 2 * maxlag + 1 ∧
      (∀ z : ℤ, z ∈ npArange (-(maxlag : ℤ)) ((maxlag : ℤ) + 1) ↔
        -(maxlag : ℤ) ≤ z ∧ z ≤ (maxlag : ℤ)) := by
  obtain ⟨arr, hloop, hlen⟩ := xcorrLoop_total_one a b maxlag
    (npArangeStep (maxlag + 1) 1) (List.replicate (maxlag / 1 * 2 + 1) 0)
    (by simp; omega)
    (fun i hi => by have := mem_npArangeStep_lt (by omega) hi; omega)
  refine ⟨arr, ?_, by omega, ?_, fun z => ?_⟩
  · unfold xcorr
    rw [if_neg (by omega : ¬ (1 : ℕ) = 0)]
    simp only [Nat.div_one] at hloop ⊢
    simp [hloop]
  · rw [npArange_length]; omega
  · rw [mem_npArange]; omega

/-! ## Claim C7: the zero-lag entry is the exact intersection count -/

/-- C7: whenever `xcorr(a, b, maxlag, spacing)` returns, the centre
(lag-0) cell of the count array is `np.intersect1d(a, b).size`, the
number of timestamp values present in both sequences — an exact match
count, not a windowed count. -/
theorem C7_zero_lag_exact_intersection (a b : List ℚ) (maxlag spacing : ℕ)
    (arr : List ℕ) (index : List ℤ)
    (h : xcorr a b maxlag spacing = some (arr, index)) :
    arr.getD maxlag 0 = intersect1dSize a b := by
  unfold xcorr at h
  by_cases hs : spacing = 0
  · rw [if_pos hs] at h; exact absurd h (by simp)
  rw [if_neg hs] at h
  obtain ⟨arrL, hloop, heq⟩ := Option.map_eq_some'.mp h
  injection heq with h1 h2
  subst h1
  subst h2
  have hpos : 0 < (maxlag + 1 + spacing - 1) / spacing :=
    Nat.div_pos (by omega) (by omega)
  rw [npArangeStep_cons hpos] at hloop
  simp only [xcorrLoop, eq_self_iff_true, if_true, if_pos] at hloop
  rcases hset : setAt (List.replicate (maxlag / spacing * 2 + 1) 0) maxlag
      (intersect1dSize a b) with _ | arr1 <;> rw [hset] at hloop
  · exact absurd hloop (by simp)
  rw [Option.some_bind] at hloop
  obtain ⟨hlt, e1⟩ := setAt_some hset
  have htail : ∀ j ∈ (List.range ((maxlag + 1 + spacing - 1) / spacing - 1)).map
      (fun k => (k + 1) * spacing), 1 ≤ j ∧ j ≤ maxlag := by
    intro j hj
    simp only [List.mem_map, List.mem_range] at hj
    obtain ⟨k, hk, rfl⟩ := hj
    constructor
    · have h1 : spacing ≤ (k + 1) * spacing := Nat.le_mul_of_pos_left spacing (by omega)
      omega
    · have h2 : (k + 2) * spacing ≤ maxlag + 1 + spacing - 1 :=
        (Nat.le_div_iff_mul_le (by omega : 0 < spacing)).mp (by omega)
      have h3 : (k + 2) * spacing = (k + 1) * spacing + spacing := by ring
      omega
  rw [xcorrLoop_center a b maxlag spacing _ arr1 arrL htail hloop, e1,
    getD_set_self _ _ hlt]

/-- The concrete `xcorr` run of the spec's Example 3. -/
theorem xcorr_example3 :
    xcorr [0, 5, 10] [0, 5, 10] 2 1 = some ([0, 1, 3, 3, 0], [-2, -1, 0, 1, 2]) := by
  norm_num [xcorr, xcorrLoop, npArangeStep, npSortQ, List.insertionSort,
    List.orderedInsert, histogram, intersect1dSize, everyOther, setAt, npArange,
    List.range_succ, List.dedup, List.replicate_succ, List.set_cons_zero,
    List.set_cons_succ, show Int.toNat 5 = 5 from rfl]

/-- Witness for C7 on the spec's Example 3. -/
theorem C7_zero_lag_exact_intersection_witness :
    xcorr [0, 5, 10] [0, 5, 10] 2 1 = some ([0, 1, 3, 3, 0], [-2, -1, 0, 1, 2]) ∧
    ([0, 1, 3, 3, 0] : List ℕ).getD 2 0 = intersect1dSize [0, 5, 10] [0, 5, 10] :=
  ⟨xcorr_example3,
    C7_zero_lag_exact_intersection [0, 5, 10] [0, 5, 10] 2 1 [0, 1, 3, 3, 0]
      [-2, -1, 0, 1, 2] xcorr_example3⟩

/-! ## Claim C3: bin sums versus spike counts -/

/-- Splitting an interval count at an inner edge. -/
theorem countP_interval_split (data : List ℚ) (e f L : ℚ) (hef : e ≤ f) (hfL : f ≤ L) :
    data.countP (fun x => decide (e ≤ x) && decide (x < f))
      + data.countP (fun x => decide (f ≤ x) && decide (x ≤ L))
      = data.countP (fun x => decide (e ≤ x) && decide (x ≤ L)) := by
  induction data with
  | nil => simp
  | cons x xs ih =>
    simp only [List.countP_cons]
    rcases lt_or_le x f with h | h
    · have h1 : ¬ (f ≤ x) := not_le.mpr h
      by_cases h2 : e ≤ x
      · have h3 : x ≤ L := le_trans (le_of_lt h) hfL
        simp [h, h1, h2, h3]
        omega
      · simp [h1, h2]
        omega
    · have h1 : ¬ (x < f) := not_lt.mpr h
      have h2 : e ≤ x := le_trans hef h
      simp [h, h1, h2]
      omega

/-- The sum of `np.histogram` counts over sorted edges is the number of
data points between the first and the last edge (inclusive). -/
theorem histogram_sum (data : List ℚ) :
    ∀ (rest : List ℚ) (e f : ℚ), (e :: f :: rest).Sorted (· ≤ ·) →
      (histogram data (e :: f :: rest)).sum
        = data.countP (fun x => decide (e ≤ x) &&
            decide (x ≤ (f :: rest).getLast (List.cons_ne_nil f rest))) := by
  intro rest
  induction rest with
  | nil =>
    intro e f _
    simp [histogram]
  | cons g rest' ih =>
    intro e f hs
    have hef : e ≤ f := (List.sorted_cons.mp hs).1 f (by simp)
    have hs' : (f :: g :: rest').Sorted (· ≤ ·) := (List.sorted_cons.mp hs).2
    have hfL : f ≤ (g :: rest').getLast (List.cons_ne_nil g rest') :=
      (List.sorted_cons.mp hs').1 _ (List.getLast_mem _)
    simp only [histogram, List.sum_cons]
    rw [ih f g hs', List.getLast_cons (List.cons_ne_nil g rest')]
    exact countP_interval_split data e f _ hef hfL

theorem binEdges_eq (allMs : List ℚ) (shift : ℕ) :
    binEdges allMs shift
      = (List.range (numEdges allMs shift)).map (fun k : ℕ => ((k * shift : ℕ) : ℚ)) := by
  unfold binEdges npArangeStep numEdges
  rw [List.map_map]
  rfl

theorem binEdges_length (allMs : List ℚ) (shift : ℕ) :
    (binEdges allMs shift).length = numEdges allMs shift := by
  rw [binEdges_eq, List.length_map, List.length_range]

theorem binEdges_getD (allMs : List ℚ) (shift k : ℕ) (hk : k < numEdges allMs shift) :
    (binEdges allMs shift).getD k 0 = ((k * shift : ℕ) : ℚ) := by
  rw [binEdges_eq,
    List.getD_eq_getElem _ _ (by rw [List.length_map, List.length_range]; exact hk)]
  simp

theorem binEdges_sorted (allMs : List ℚ) (shift : ℕ) :
    (binEdges allMs shift).Sorted (· ≤ ·) := by
  rw [binEdges_eq]
  refine List.pairwise_map.mpr ?_
  exact (List.pairwise_lt_range _).imp
    (fun hij => Nat.cast_le.mpr (Nat.mul_le_mul_right shift (le_of_lt hij)))

/-- C3 counterexample: with `shift = 1` ms and spikes at
`[0.0005 s, 0.0015 s, 0.0025 s]`, the bin edges are
`np.arange(0, ceil(2.5), 1) = [0, 1, 2]`, the histogram is `[1, 1]` (the
spike at 2.5 ms lies beyond the last edge and is dropped), and the sum
is 2, not the claimed 3. -/
theorem C3_counterexample :
    binnedSeries (toMs [1/2000, 3/2000, 5/2000]) (toMs [1/2000, 3/2000, 5/2000]) 1
      = [1, 1] ∧
    (binnedSeries (toMs [1/2000, 3/2000, 5/2000]) (toMs [1/2000, 3/2000, 5/2000]) 1).sum
      ≠ 3 := by
  have hceil : (⌈(5 : ℚ)/2⌉ : ℤ) = 3 := by
    rw [Int.ceil_eq_iff]
    constructor <;> norm_num
  have h : binnedSeries (toMs [1/2000, 3/2000, 5/2000])
      (toMs [1/2000, 3/2000, 5/2000]) 1 = [1, 1] := by
    norm_num [binnedSeries, binEdges, numEdges, npArangeStep, toMs, listMax, max_def,
      histogram, List.range_succ, hceil]
  exact ⟨h, by rw [h]; decide⟩

/-- C3 amended: a cluster's binned series does *not* in general sum to
the cluster's spike count — the edges `np.arange(0, ceil(max_ms), shift)`
stop strictly below `ceil(max_ms)`, so spikes later than the last edge
(in particular the latest spike, whenever it exceeds `(numEdges-1)·shift`)
are dropped.  The sum equals the number of the cluster's spikes lying in
`[0, lastEdge]`; in the spec's Example 4 the bins are `[1, 1]`, summing
to 2 rather than 3. -/
theorem C3_binned_sum_counts_up_to_last_edge (allMs clusterMs : List ℚ) (shift : ℕ)
    (_hs : 1 ≤ shift) (h2 : 2 ≤ numEdges allMs shift) :
    (binnedSeries allMs clusterMs shift).sum
      = clusterMs.countP
          (fun x => decide ((0 : ℚ) ≤ x) && decide (x ≤ lastEdge allMs shift)) := by
  have hlen : 2 ≤ (binEdges allMs shift).length := by
    rw [binEdges_length]; exact h2
  rcases hE : binEdges allMs shift with _ | ⟨e, tail⟩
  · rw [hE] at hlen; simp at hlen
  rcases tail with _ | ⟨f, rest⟩
  · rw [hE] at hlen; simp at hlen
  have hsorted : (e :: f :: rest).Sorted (· ≤ ·) := by
    have := binEdges_sorted allMs shift
    rwa [hE] at this
  have hsum : (binnedSeries allMs clusterMs shift).sum
      = clusterMs.countP (fun x => decide (e ≤ x) &&
          decide (x ≤ (f :: rest).getLast (List.cons_ne_nil f rest))) := by
    unfold binnedSeries
    rw [hE]
    exact histogram_sum clusterMs rest e f hsorted
  have he : e = 0 := by
    have h0 := binEdges_getD allMs shift 0 (by omega)
    rw [hE] at h0
    simpa using h0
  have hlast : (f :: rest).getLast (List.cons_ne_nil f rest) = lastEdge allMs shift := by
    have hlen2 : (e :: f :: rest).length = numEdges allMs shift := by
      rw [← hE, binEdges_length]
    have hg := binEdges_getD allMs shift (numEdges allMs shift - 1) (by omega)
    rw [hE] at hg
    have h3 : (e :: f :: rest).getLast (by simp)
        = (e :: f :: rest).getD ((e :: f :: rest).length - 1) 0 := by
      rw [List.getLast_eq_getElem, List.getD_eq_getElem _ _ (by simp)]
    rw [← List.getLast_cons (List.cons_ne_nil f rest), h3, hlen2, hg]
    rfl
  rw [hsum, he, hlast]

/-- Witness for C3's amended theorem on the Example 4 data. -/
theorem C3_binned_sum_counts_up_to_last_edge_witness :
    (1 ≤ 1 ∧ 2 ≤ numEdges (toMs [1/2000, 3/2000, 5/2000]) 1) ∧
    (binnedSeries (toMs [1/2000, 3/2000, 5/2000]) (toMs [1/2000, 3/2000, 5/2000]) 1).sum
      = (toMs [1/2000, 3/2000, 5/2000]).countP
          (fun x => decide ((0 : ℚ) ≤ x) &&
            decide (x ≤ lastEdge (toMs [1/2000, 3/2000, 5/2000]) 1)) := by
  have hceil : (⌈(5 : ℚ)/2⌉ : ℤ) = 3 := by
    rw [Int.ceil_eq_iff]
    constructor <;> norm_num
  have hn : 2 ≤ numEdges (toMs [1/2000, 3/2000, 5/2000]) 1 := by
    norm_num [numEdges, toMs, listMax, max_def, hceil]
  exact ⟨⟨le_refl 1, hn⟩,
    C3_binned_sum_counts_up_to_last_edge (toMs [1/2000, 3/2000, 5/2000])
      (toMs [1/2000, 3/2000, 5/2000]) 1 (le_refl 1) hn⟩

/-! ## Claim C4: pair-order symmetry of the correlogram -/

/-- The embedding `ℕ ↪ ℤ`. -/
def natCastEmb : ℕ ↪ ℤ :=
  ⟨fun n => (n : ℤ), fun a b h => by exact Nat.cast_inj.mp h⟩

/-- The row labels of a column, as a finite set of integers. -/
def suppSet (c : List ℕ) : Finset ℤ :=
  (Finset.range c.length).map natCastEmb

theorem mem_suppSet {c : List ℕ} {z : ℤ} :
    z ∈ suppSet c ↔ 0 ≤ z ∧ z.toNat < c.length := by
  simp only [suppSet, Finset.mem_map, Finset.mem_range, natCastEmb,
    Function.Embedding.coeFn_mk]
  constructor
  · rintro ⟨n, hn, rfl⟩
    omega
  · rintro ⟨h1, h2⟩
    exact ⟨z.toNat, h2, by omega⟩

theorem colAt_eq_zero {c : List ℕ} {z : ℤ} (h : z ∉ suppSet c) : colAt c z = 0 := by
  rw [mem_suppSet] at h
  unfold colAt
  split
  · rfl
  · exact List.getD_eq_default _ _ (by omega)

theorem colAt_natCast (c : List ℕ) (t : ℕ) : colAt c (t : ℤ) = c.getD t 0 := by
  unfold colAt
  rw [if_neg (by omega)]
  simp

/-- `corrEntry` as a sum over any finite superset of the reference
column's row-label set. -/
theorem corrEntry_eq_sum_over (ref paired : List ℕ) (k : ℤ) (S : Finset ℤ)
    (hS : suppSet ref ⊆ S) :
    corrEntry ref paired k
      = ∑ z ∈ S, (if colAt ref z ≠ 0 then colAt paired (z + k) else 0) := by
  rw [← Finset.sum_subset hS
    (fun z _ hz => by rw [if_neg (by simpa using colAt_eq_zero hz)])]
  unfold suppSet
  rw [Finset.sum_map]
  unfold corrEntry
  refine Finset.sum_congr rfl (fun t _ => ?_)
  have : colAt ref (natCastEmb t) = ref.getD t 0 := colAt_natCast ref t
  rw [this]
  rcases eq_or_ne (ref.getD t 0) 0 with h | h
  · rw [if_neg (by simpa using h), if_neg (by simpa using h)]
  · rw [if_pos h, if_pos h]
    rfl

/-- When every count of a column is 0 or 1, the nonzero-indicator gate
equals multiplication by the count itself. -/
theorem indicator_eq_mul {c : List ℕ} (hc : ∀ x ∈ c, x ≤ 1) (z : ℤ) (m : ℕ) :
    (if colAt c z ≠ 0 then m else 0) = colAt c z * m := by
  rcases eq_or_ne (colAt c z) 0 with h | h
  · rw [if_neg (by simpa using h), h, Nat.zero_mul]
  · have hmem : colAt c z ∈ c := by
      by_cases hz : z < 0
      · exact absurd (by unfold colAt; rw [if_pos hz]) h
      · have hlt : z.toNat < c.length := by
          by_contra hge
          exact h (by unfold colAt; rw [if_neg hz]; exact List.getD_eq_default _ _ (by omega))
        unfold colAt
        rw [if_neg hz, List.getD_eq_getElem _ _ hlt]
        exact List.getElem_mem hlt
    have h1 : colAt c z = 1 := le_antisymm (hc _ hmem) (by omega)
    rw [if_pos h, h1, Nat.one_mul]

/-- C4 counterexample: with reference column `[2, 0]` (a bin holding two
spikes) and paired column `[0, 1]`, the entry at lag `+1` computed with
the first cluster as reference is 1, but the entry at lag `-1` computed
with the second cluster as reference is 2: the reference column enters
only through its nonzero *bins* while the paired column enters by
*count*, so the claimed symmetry fails. -/
theorem C4_counterexample :
    corrEntry [2, 0] [0, 1] 1 ≠ corrEntry [0, 1] [2, 0] (-1) := by
  decide

/-- C4 amended: the pair-order symmetry
`Correlogram(i,j)[+k] = Correlogram(j,i)[-k]` holds under the additional
hypothesis that every bin count of both clusters is 0 or 1 (at most one
spike per bin); in general it fails as soon as a reference bin holds two
or more spikes. -/
theorem C4_symmetry_for_binary_counts (bi bj : List ℕ) (k : ℤ)
    (hbi : ∀ x ∈ bi, x ≤ 1) (hbj : ∀ x ∈ bj, x ≤ 1) :
    corrEntry bi bj k = corrEntry bj bi (-k) := by
  have hL : corrEntry bi bj k
      = ∑ z ∈ suppSet bi, colAt bi z * colAt bj (z + k) := by
    rw [corrEntry_eq_sum_over bi bj k (suppSet bi) (Finset.Subset.refl _)]
    exact Finset.sum_congr rfl (fun z _ => indicator_eq_mul hbi z _)
  have hR : corrEntry bj bi (-k)
      = ∑ w ∈ suppSet bj, colAt bj w * colAt bi (w - k) := by
    rw [corrEntry_eq_sum_over bj bi (-k) (suppSet bj) (Finset.Subset.refl _)]
    refine Finset.sum_congr rfl (fun w _ => ?_)
    rw [indicator_eq_mul hbj w _, sub_eq_add_neg]
  -- reindex the left sum by `z ↦ z + k`
  have hmap : ∑ z ∈ suppSet bi, colAt bi z * colAt bj (z + k)
      = ∑ w ∈ (suppSet bi).map (addRightEmbedding k),
          colAt bj w * colAt bi (w - k) := by
    rw [Finset.sum_map]
    refine Finset.sum_congr rfl (fun z _ => ?_)
    have h1 : (addRightEmbedding k) z = z + k := rfl
    rw [h1, add_sub_cancel_right, Nat.mul_comm]
  -- both sides equal the sum over the union
  have hunion1 : ∑ w ∈ (suppSet bi).map (addRightEmbedding k),
        colAt bj w * colAt bi (w - k)
      = ∑ w ∈ ((suppSet bi).map (addRightEmbedding k)) ∪ suppSet bj,
          colAt bj w * colAt bi (w - k) := by
    refine Finset.sum_subset Finset.subset_union_left (fun w _ hw => ?_)
    have hnot : w - k ∉ suppSet bi := by
      intro hmem
      exact hw (Finset.mem_map.mpr ⟨w - k, hmem, by
        show (w - k) + k = w
        ring⟩)
    rw [colAt_eq_zero hnot, Nat.mul_zero]
  have hunion2 : ∑ w ∈ suppSet bj, colAt bj w * colAt bi (w - k)
      = ∑ w ∈ ((suppSet bi).map (addRightEmbedding k)) ∪ suppSet bj,
          colAt bj w * colAt bi (w - k) := by
    refine Finset.sum_subset Finset.subset_union_right (fun w _ hw => ?_)
    rw [colAt_eq_zero hw, Nat.zero_mul]
  rw [hL, hR, hmap, hunion1, hunion2]

/-- Witness for C4's amended theorem on binary columns. -/
theorem C4_symmetry_for_binary_counts_witness :
    ((∀ x ∈ ([1, 0, 1] : List ℕ), x ≤ 1) ∧ (∀ x ∈ ([0, 1] : List ℕ), x ≤ 1)) ∧
    corrEntry [1, 0, 1] [0, 1] 1 = corrEntry [0, 1] [1, 0, 1] (-1) :=
  ⟨⟨by decide, by decide⟩,
    C4_symmetry_for_binary_counts [1, 0, 1] [0, 1] 1 (by decide) (by decide)⟩

/-! ## Claim C9: the trial-boundary confirmation loop -/

theorem pyGet_natCast (l : List ℕ) (n : ℕ) : pyGet l (n : ℤ) = l.getD n 0 := by
  unfold pyGet
  rw [if_neg (by omega)]
  simp

theorem pyGet_sub_one (l : List ℕ) (n : ℕ) (h : 1 ≤ n) :
    pyGet l ((n : ℤ) - 1) = l.getD (n - 1) 0 := by
  have he : (n : ℤ) - 1 = ((n - 1 : ℕ) : ℤ) := by omega
  rw [he, pyGet_natCast]

theorem pyGet_add_one (l : List ℕ) (n : ℕ) :
    pyGet l ((n : ℤ) + 1) = l.getD (n + 1) 0 := by
  have he : (n : ℤ) + 1 = ((n + 1 : ℕ) : ℤ) := by omega
  rw [he, pyGet_natCast]

/-- Full characterisation of the boundary loop, for candidate lists whose
members have a predecessor (`1 ≤ idx`, so Python's `idx - 1` really is
the previous high peak): the kept boundaries are exactly the candidates
whose gap to the previous high peak is not `< 500`, and the surviving
low peaks are those lying strictly between the bracketing high peaks of
no confirmed boundary. -/
theorem breakLoop_spec (H : List ℕ) :
    ∀ (cands lows : List ℕ), (∀ idx ∈ cands, 1 ≤ idx) →
      breakLoop H cands lows
        = (cands.filter (fun idx =>
             !decide ((H.getD idx 0 : ℤ) - (H.getD (idx - 1) 0 : ℤ) < 500)),
           lows.filter (fun p => decide (∀ idx ∈ cands,
             ¬ ((H.getD idx 0 : ℤ) - (H.getD (idx - 1) 0 : ℤ) < 500) →
             ¬ (H.getD idx 0 < p ∧ p < H.getD (idx + 1) 0)))) := by
  intro cands
  induction cands with
  | nil =>
    intro lows _
    simp [breakLoop]
  | cons idx rest ih =>
    intro lows hc
    have h1 : 1 ≤ idx := hc idx (by simp)
    have hrest : ∀ j ∈ rest, 1 ≤ j := fun j hj => hc j (by simp [hj])
    have hpy0 : pyGet H (idx : ℤ) = H.getD idx 0 := pyGet_natCast H idx
    have hpy1 : pyGet H ((idx : ℤ) - 1) = H.getD (idx - 1) 0 := pyGet_sub_one H idx h1
    have hpy2 : pyGet H ((idx : ℤ) + 1) = H.getD (idx + 1) 0 := pyGet_add_one H idx
    by_cases hgap : (H.getD idx 0 : ℤ) - (H.getD (idx - 1) 0 : ℤ) < 500
    · have hcond : (pyGet H (idx : ℤ) : ℤ) - (pyGet H ((idx : ℤ) - 1) : ℤ) < 500 := by
        rw [hpy0, hpy1]; exact hgap
      simp only [breakLoop, if_pos hcond]
      rw [ih lows hrest, Prod.mk.injEq]
      have hb : (!decide ((H.getD idx 0 : ℤ) - (H.getD (idx - 1) 0 : ℤ) < 500)) = false := by
        rw [decide_eq_true hgap]
        rfl
      constructor
      · rw [List.filter_cons, hb]
        simp
      · refine List.filter_congr (fun p _ => ?_)
        rw [decide_eq_decide.mpr List.forall_mem_cons, Bool.decide_and,
          decide_eq_true (show ¬ ((H.getD idx 0 : ℤ) - (H.getD (idx - 1) 0 : ℤ) < 500) →
            ¬ (H.getD idx 0 < p ∧ p < H.getD (idx + 1) 0) from
            fun hng => absurd hgap hng), Bool.true_and]
    · have hcond : ¬ ((pyGet H (idx : ℤ) : ℤ) - (pyGet H ((idx : ℤ) - 1) : ℤ) < 500) := by
        rw [hpy0, hpy1]; exact hgap
      simp only [breakLoop, if_neg hcond]
      rw [ih _ hrest, Prod.mk.injEq]
      have hb : (!decide ((H.getD idx 0 : ℤ) - (H.getD (idx - 1) 0 : ℤ) < 500)) = true := by
        rw [decide_eq_false hgap]
        rfl
      constructor
      · rw [List.filter_cons, hb]
        simp
      · rw [List.filter_filter]
        refine List.filter_congr (fun p _ => ?_)
        rw [hpy0, hpy2]
        rw [decide_eq_decide.mpr List.forall_mem_cons, Bool.decide_and,
          decide_eq_decide.mpr (show (¬ ((H.getD idx 0 : ℤ) - (H.getD (idx - 1) 0 : ℤ) < 500) →
              ¬ (H.getD idx 0 < p ∧ p < H.getD (idx + 1) 0)) ↔
              ¬ (H.getD idx 0 < p ∧ p < H.getD (idx + 1) 0) from
            ⟨fun h => h hgap, fun h _ => h⟩),
          decide_not, Bool.decide_and, Bool.and_comm]

/-- C9: for every candidate trial boundary (a consecutive high-peak gap
`> 5000` samples) whose left peak has a predecessor: when the gap to the
previous high peak is `< 500` samples the boundary is discarded and that
boundary deletes no low peaks; otherwise it is confirmed and exactly the
low peaks strictly between the two bracketing high peaks are deleted. -/
theorem C9_boundary_discard_or_confirm (H lows : List ℕ)
    (hc : ∀ idx ∈ trial_break_idx H, 1 ≤ idx) :
    breakLoop H (trial_break_idx H) lows
      = ((trial_break_idx H).filter (fun idx =>
           !decide ((H.getD idx 0 : ℤ) - (H.getD (idx - 1) 0 : ℤ) < 500)),
         lows.filter (fun p => decide (∀ idx ∈ trial_break_idx H,
           ¬ ((H.getD idx 0 : ℤ) - (H.getD (idx - 1) 0 : ℤ) < 500) →
           ¬ (H.getD idx 0 < p ∧ p < H.getD (idx + 1) 0)))) :=
  breakLoop_spec H (trial_break_idx H) lows hc

/-- Witness for C9: high peaks `[0, 300, 6000, 6300]` give one candidate
boundary at index 1 (gap 5700 > 5000); the gap to the previous high peak
is 300 < 500, so it is discarded and the low peak at 6100 survives. -/
theorem C9_boundary_discard_or_confirm_witness :
    (∀ idx ∈ trial_break_idx [0, 300, 6000, 6300], 1 ≤ idx) ∧
    breakLoop [0, 300, 6000, 6300] (trial_break_idx [0, 300, 6000, 6300]) [6100]
      = ((trial_break_idx [0, 300, 6000, 6300]).filter (fun idx =>
           !decide (([0, 300, 6000, 6300].getD idx 0 : ℤ)
              - ([0, 300, 6000, 6300].getD (idx - 1) 0 : ℤ) < 500)),
         [6100].filter (fun p => decide (∀ idx ∈ trial_break_idx [0, 300, 6000, 6300],
           ¬ (([0, 300, 6000, 6300].getD idx 0 : ℤ)
              - ([0, 300, 6000, 6300].getD (idx - 1) 0 : ℤ) < 500) →
           ¬ ([0, 300, 6000, 6300].getD idx 0 < p
              ∧ p < [0, 300, 6000, 6300].getD (idx + 1) 0)))) :=
  ⟨by decide, C9_boundary_discard_or_confirm [0, 300, 6000, 6300] [6100] (by decide)⟩

/-! ## Claim C5: onset sets are strictly increasing -/

theorem npSort_sorted (l : List ℕ) : (npSort l).Sorted (· ≤ ·) :=
  List.sorted_insertionSort _ l

theorem npSort_perm (l : List ℕ) : (npSort l).Perm l :=
  List.perm_insertionSort _ l

theorem npSort_mem {a : ℕ} {l : List ℕ} : a ∈ npSort l ↔ a ∈ l :=
  (npSort_perm l).mem_iff

/-- A `≤`-sorted duplicate-free list is `<`-sorted. -/
theorem sorted_lt_of_sorted_le_nodup {l : List ℕ} (hs : l.Sorted (· ≤ ·))
    (hn : l.Nodup) : l.Sorted (· < ·) :=
  (hs.and hn).imp (fun h => lt_of_le_of_ne h.1 h.2)

theorem npSort_sorted_lt {l : List ℕ} (hn : l.Nodup) : (npSort l).Sorted (· < ·) :=
  sorted_lt_of_sorted_le_nodup (npSort_sorted l) ((npSort_perm l).nodup_iff.mpr hn)

theorem risingAux_sublist (f : ℕ → Bool) : ∀ (prev : ℕ) (l : List ℕ),
    (risingAux f prev l).Sublist l := by
  intro prev l
  induction l generalizing prev with
  | nil => simp [risingAux]
  | cons p rest ih =>
    unfold risingAux
    by_cases h : f p && !f prev
    · rw [if_pos h]
      exact (ih p).cons₂ p
    · rw [if_neg h]
      exact (ih p).cons p

theorem rising_sublist (f : ℕ → Bool) (l : List ℕ) : (rising f l).Sublist l := by
  cases l with
  | nil => simp [rising]
  | cons p rest =>
    simp only [rising]
    by_cases h : f p
    · rw [if_pos h]
      exact (risingAux_sublist f p rest).cons₂ p
    · rw [if_neg h]
      exact (risingAux_sublist f p rest).cons p

theorem mem_risingAux {f : ℕ → Bool} {a : ℕ} : ∀ {prev : ℕ} {l : List ℕ},
    a ∈ risingAux f prev l → f a = true := by
  intro prev l
  induction l generalizing prev with
  | nil => simp [risingAux]
  | cons p rest ih =>
    unfold risingAux
    by_cases h : f p && !f prev
    · rw [if_pos h]
      intro hmem
      rcases List.mem_append.mp hmem with h1 | h2
      · rw [List.mem_singleton.mp h1]
        exact (Bool.and_eq_true_iff.mp h).1
      · exact ih h2
    · rw [if_neg h]
      intro hmem
      exact ih (by simpa using hmem)

theorem mem_rising {f : ℕ → Bool} {a : ℕ} {l : List ℕ}
    (h : a ∈ rising f l) : f a = true := by
  cases l with
  | nil => simp [rising] at h
  | cons p rest =>
    simp only [rising] at h
    by_cases hp : f p
    · rw [if_pos hp] at h
      rcases List.mem_append.mp h with h1 | h2
      · rw [List.mem_singleton.mp h1]
        exact hp
      · exact mem_risingAux h2
    · rw [if_neg hp] at h
      exact mem_risingAux (by simpa using h)

theorem npDelete_sublist (l : List ℕ) (idxs : List ℕ) :
    (npDelete l idxs).Sublist l := by
  unfold npDelete
  have h1 : ((l.enum.filter (fun q => decide (q.1 ∉ idxs))).map Prod.snd).Sublist
      (l.enum.map Prod.snd) := List.Sublist.map Prod.snd (List.filter_sublist _)
  rwa [List.enum_map_snd] at h1

theorem breakLoop_snd_sublist (H : List ℕ) :
    ∀ (cands lows : List ℕ), ((breakLoop H cands lows).2).Sublist lows := by
  intro cands
  induction cands with
  | nil => intro lows; simp [breakLoop]
  | cons idx rest ih =>
    intro lows
    unfold breakLoop
    by_cases h : (pyGet H (idx : ℤ) : ℤ) - (pyGet H ((idx : ℤ) - 1) : ℤ) < 500
    · rw [if_pos h]
      exact ih lows
    · rw [if_neg h]
      exact ((ih _).trans (List.filter_sublist _))

theorem mem_peaks_high {amp : ℕ → ℤ} {peaks : List ℕ} {a : ℕ}
    (h : a ∈ peaks_high amp peaks) : hi_cut < amp a := by
  have h2 := (List.mem_filter.mp h).2
  simpa using h2

theorem mem_peaks_low {amp : ℕ → ℤ} {peaks : List ℕ} {a : ℕ}
    (h : a ∈ peaks_low amp peaks) : lo_cut < amp a ∧ amp a < hi_cut := by
  have h2 := (List.mem_filter.mp h).2
  simpa using h2

/-- The filtered peak list of the fh pipeline has no duplicates: it
merges a sub-list of the high peaks with a sub-list of the low peaks,
and the two amplitude classes are disjoint. -/
theorem fhPeaksFinal_nodup {amp : ℕ → ℤ} {peaks : List ℕ} (hn : peaks.Nodup) :
    (fhPeaksFinal amp peaks).Nodup := by
  have hH : (peaks_high amp peaks).Nodup := hn.filter _
  have hL : (peaks_low amp peaks).Nodup := hn.filter _
  have hsubH : (((npDelete (peaks_high amp peaks)
      (npSort ((breakLoop (peaks_high amp peaks)
        (trial_break_idx (peaks_high amp peaks)) (peaks_low amp peaks)).1 ++
        ((breakLoop (peaks_high amp peaks)
          (trial_break_idx (peaks_high amp peaks)) (peaks_low amp peaks)).1).map
            (· + 1)))).drop 1).dropLast).Sublist (peaks_high amp peaks) :=
    (List.dropLast_sublist _).trans ((List.drop_sublist _ _).trans (npDelete_sublist _ _))
  unfold fhPeaksFinal
  refine (npSort_perm _).nodup_iff.mpr ?_
  refine List.Nodup.append (hsubH.nodup hH)
    ((breakLoop_snd_sublist _ _ _).nodup hL) ?_
  intro a ha hb
  have h1 := mem_peaks_high (hsubH.subset ha)
  have h2 := mem_peaks_low ((breakLoop_snd_sublist _ _ _).subset hb)
  exact absurd h1 (not_lt.mpr (le_of_lt h2.2))

/-- The merged rising-edge list of the fh pipeline is strictly
increasing: the high-edge and low-edge lists are duplicate-free
sub-lists of the filtered peak list, and their amplitude classes are
disjoint, so the final sort has no duplicates. -/
theorem fhOnsetsLocal_sorted_lt {amp : ℕ → ℤ} {peaks : List ℕ} (hn : peaks.Nodup) :
    (fhOnsetsLocal amp peaks).Sorted (· < ·) := by
  have hps : (fhPeaksFinal amp peaks).Nodup := fhPeaksFinal_nodup hn
  unfold fhOnsetsLocal
  refine npSort_sorted_lt ?_
  refine List.Nodup.append ((rising_sublist _ _).nodup hps)
    ((rising_sublist _ _).nodup hps) ?_
  intro a ha hb
  have h1 := mem_rising ha
  have h2 := mem_rising hb
  simp only [decide_eq_true_eq] at h1 h2
  omega

/-- Adding a constant offset preserves strict sortedness. -/
theorem sorted_lt_map_add {l : List ℕ} (c : ℕ) (h : l.Sorted (· < ·)) :
    (l.map (· + c)).Sorted (· < ·) :=
  List.pairwise_map.mpr (h.imp (fun hab => by omega))

theorem getD_lt_getD_of_sorted {l : List ℕ} (hs : l.Sorted (· < ·)) {i j : ℕ}
    (hij : i < j) (hj : j < l.length) : l.getD i 0 < l.getD j 0 := by
  rw [List.getD_eq_getElem _ _ (lt_trans hij hj), List.getD_eq_getElem _ _ hj]
  exact List.pairwise_iff_getElem.mp hs i j (lt_trans hij hj) hj hij

/-- The pg onset list is strictly increasing: it is the first peak
followed by peaks at strictly increasing later positions. -/
theorem pgOnsets_sorted_lt {peaks : List ℕ} (hs : peaks.Sorted (· < ·)) :
    (pgOnsets peaks).Sorted (· < ·) := by
  unfold pgOnsets
  rw [show ∀ (l1 l2 : List ℕ), (l1 ++ l2).Sorted (· < ·)
        ↔ ((l1 ++ l2).Pairwise (· < ·)) from fun _ _ => Iff.rfl,
    List.pairwise_append]
  refine ⟨?_, ?_, ?_⟩
  · cases peaks with
    | nil => simp
    | cons p rest => simp
  · refine List.pairwise_map.mpr ?_
    refine ((List.pairwise_lt_range _).filter _).imp_of_mem ?_
    intro a b _ hb hab
    have hb' : b < peaks.length - 1 := List.mem_range.mp (List.mem_of_mem_filter hb)
    exact getD_lt_getD_of_sorted hs (by omega) (by omega)
  · intro a ha b hb
    cases peaks with
    | nil => simp at ha
    | cons p rest =>
      have ha' : a = p := by simpa using ha
      obtain ⟨i, hi, rfl⟩ := List.mem_map.mp hb
      have hi' : i < (p :: rest).length - 1 :=
        List.mem_range.mp (List.mem_of_mem_filter hi)
      have hp0 : (p :: rest).getD 0 0 = p := rfl
      rw [ha', ← hp0]
      exact getD_lt_getD_of_sorted hs (by omega) (by simp at hi' ⊢; omega)

/-- C5: for every photodiode amplitude function and strictly increasing
peak list (as `detect_peaks` returns), both `get_stim_samples_fh` and
`get_stim_samples_pg` emit a strictly increasing sequence of onset
sample offsets — in particular one with no duplicates. -/
theorem C5_onsets_strictly_increasing (amp : ℕ → ℤ) (peaks : List ℕ)
    (start_time : ℕ) (hp : peaks.Sorted (· < ·)) :
    (fhStimTimes amp peaks start_time).Sorted (· < ·) ∧
    (pgStimTimes peaks start_time).Sorted (· < ·) := by
  have hn : peaks.Nodup := hp.imp (fun h => ne_of_lt h)
  constructor
  · exact sorted_lt_map_add _ (fhOnsetsLocal_sorted_lt hn)
  · exact sorted_lt_map_add _ (pgOnsets_sorted_lt hp)

/-- Witness for C5 on a five-peak waveform (three high pulses at 100,
500, 6000 and low pulses at 300, 6200). -/
theorem C5_onsets_strictly_increasing_witness :
    ([100, 300, 500, 6000, 6200] : List ℕ).Sorted (· < ·) ∧
    ((fhStimTimes
        (fun n => if n = 100 then 2000 else if n = 300 then 1000 else
          if n = 500 then 2000 else if n = 6000 then 2000 else
          if n = 6200 then 1000 else 0)
        [100, 300, 500, 6000, 6200] 1).Sorted (· < ·) ∧
      (pgStimTimes [100, 300, 500, 6000, 6200] 1).Sorted (· < ·)) :=
  ⟨by decide,
    C5_onsets_strictly_increasing
      (fun n => if n = 100 then 2000 else if n = 300 then 1000 else
        if n = 500 then 2000 else if n = 6000 then 2000 else
        if n = 6200 then 1000 else 0)
      [100, 300, 500, 6000, 6200] 1 (by decide)⟩

end ColorVision
